import Mathlib

/-!
Verification of the KnightmareProtocol repository's orchestration,
notification and session-API behaviour.

The TypeScript under `src/` (Next.js API routes) is embedded shallowly:
`JSON.stringify(·, null, 2)` becomes `renderVal`, `JSON.parse` becomes
`parseTop`, the file system becomes a map from file names to character
lists, and each route handler becomes a total Lean function whose
`Except` intermediate models the try/catch structure of the handler.

The Python agent backend (capability registry, parallel/sequential
composition engine, notification store) is documented but not present in
the snapshot, so those components are modelled from the specification
text; each such definition carries a doc comment starting with
`Modelled from the spec:`.
-/

/-! ### JSON values

Shallow embedding of the JSON data manipulated by the session API
routes.  Objects are ordered association lists (JS objects preserve
field insertion order, and the records handled by these routes never
carry duplicate keys), numbers are integers (every numeric field stored
by the frontend is an integral `Date.now()` value; IEEE-754 fractions
are outside this embedding). -/

inductive Json : Type where
  | null : Json
  | bool (b : Bool) : Json
  | num (n : Int) : Json
  | str (s : String) : Json
  | arr (items : List Json) : Json
  | obj (fields : List (String × Json)) : Json
  deriving Repr

/-- Decimal digit `d` (for `d < 10`) as a character, as produced by JS
number-to-string conversion. -/
def digitChar (d : Nat) : Char := Char.ofNat (48 + d)

/-- Decimal digits of a natural number, most significant first, as JS
prints an integral number. -/
def natChars (n : Nat) : List Char :=
  if n < 10 then [digitChar n]
  else natChars (n / 10) ++ [digitChar (n % 10)]
decreasing_by exact Nat.div_lt_self (by omega) (by omega)

/-- Decimal representation of an integer, as JS prints it. -/
def intChars (n : Int) : List Char :=
  if n < 0 then '-' :: natChars n.natAbs else natChars n.natAbs

/-- Lowercase hexadecimal digit, as used by `JSON.stringify` in
`\u00xx` escapes. -/
def hexChar (d : Nat) : Char :=
  if d < 10 then Char.ofNat (48 + d) else Char.ofNat (87 + d)

/-- Escaping of one string character, exactly as `JSON.stringify` emits
it: `"` and `\` get a backslash escape, control characters get their
short escape when one exists and a `\u00xx` escape otherwise, and every
other character is emitted verbatim. -/
def escChar (c : Char) : List Char :=
  if c = '"' then ['\\', '"']
  else if c = '\\' then ['\\', '\\']
  else if 32 ≤ c.toNat then [c]
  else if c = '\x08' then ['\\', 'b']
  else if c = '\t' then ['\\', 't']
  else if c = '\n' then ['\\', 'n']
  else if c = '\x0c' then ['\\', 'f']
  else if c = '\r' then ['\\', 'r']
  else ['\\', 'u', '0', '0', hexChar (c.toNat / 16), hexChar (c.toNat % 16)]

/-- Escaped body of a JSON string literal. -/
def escString (s : String) : List Char := s.data.flatMap escChar

/-- A complete JSON string literal including its quotes. -/
def strChars (s : String) : List Char := '"' :: (escString s ++ ['"'])

/-- Newline followed by `ind` spaces: the separator `JSON.stringify`
inserts when called with indent argument `2`, at nesting depth
`ind / 2`. -/
def nlIndent (ind : Nat) : List Char := '\n' :: List.replicate ind ' '

/-- Literal text of the JSON null value. -/
def litNull : List Char := ['n', 'u', 'l', 'l']

/-- Literal text of the JSON true value. -/
def litTrue : List Char := ['t', 'r', 'u', 'e']

/-- Literal text of the JSON false value. -/
def litFalse : List Char := ['f', 'a', 'l', 's', 'e']

mutual
/-- Text of `JSON.stringify(v, null, 2)` at current indentation `ind`,
as written to a session file by the POST and PUT handlers of
`src/app/api/sessions`. -/
def renderVal (ind : Nat) : Json → List Char
  | .null => litNull
  | .bool true => litTrue
  | .bool false => litFalse
  | .num n => intChars n
  | .str s => strChars s
  | .arr [] => ['[', ']']
  | .arr (v :: vs) => '[' :: (renderItems (ind + 2) v vs ++ nlIndent ind ++ [']'])
  | .obj [] => ['{', '}']
  | .obj ((k, v) :: fs) => '{' :: (renderFields (ind + 2) k v fs ++ nlIndent ind ++ ['}'])
termination_by j => sizeOf j
decreasing_by all_goals (simp_wf <;> omega)

/-- Array elements of the indented `JSON.stringify` output: each element
on its own line, separated by commas. -/
def renderItems (ind : Nat) (v : Json) : List Json → List Char
  | [] => nlIndent ind ++ renderVal ind v
  | w :: ws => nlIndent ind ++ renderVal ind v ++ ',' :: renderItems ind w ws
termination_by l => sizeOf v + sizeOf l
decreasing_by all_goals (simp_wf <;> omega)

/-- Object members of the indented `JSON.stringify` output: each
`"key": value` on its own line, separated by commas. -/
def renderFields (ind : Nat) (k : String) (v : Json) : List (String × Json) → List Char
  | [] => nlIndent ind ++ strChars k ++ ':' :: ' ' :: renderVal ind v
  | (k2, v2) :: gs =>
    nlIndent ind ++ strChars k ++ ':' :: ' ' :: renderVal ind v ++ ',' :: renderFields ind k2 v2 gs
termination_by l => sizeOf v + sizeOf l
decreasing_by all_goals (simp_wf <;> omega)
end

/-- JSON insignificant whitespace, as skipped by `JSON.parse`. -/
def isWs (c : Char) : Bool := c = ' ' || c = '\t' || c = '\n' || c = '\r'

/-- Drop leading insignificant whitespace. -/
def skipWs : List Char → List Char
  | c :: cs => if isWs c then skipWs cs else c :: cs
  | [] => []

/-- Decimal digit test on characters. -/
def isDigitC (c : Char) : Bool := 48 ≤ c.toNat && c.toNat ≤ 57

/-- Numeric value of a decimal digit character. -/
def digitVal (c : Char) : Nat := c.toNat - 48

/-- Consume a maximal run of decimal digits, accumulating their value
onto `acc`. -/
def parseDigits : List Char → Nat → Nat × List Char
  | c :: cs, acc => if isDigitC c then parseDigits cs (acc * 10 + digitVal c) else (acc, c :: cs)
  | [], acc => (acc, [])

/-- Parse an integral JSON number (optional minus sign followed by at
least one digit).  Fractional and exponent forms do not occur in the
records this application stores and are not modelled. -/
def parseNum : List Char → Option (Int × List Char)
  | [] => none
  | c :: cs =>
    if c = '-' then
      match cs with
      | [] => none
      | d :: _ =>
        if isDigitC d then
          let p := parseDigits cs 0
          some (-(p.1 : Int), p.2)
        else none
    else if isDigitC c then
      let p := parseDigits (c :: cs) 0
      some ((p.1 : Int), p.2)
    else none

/-- Value of one hexadecimal digit character, accepting both cases as
`JSON.parse` does. -/
def hexVal (c : Char) : Option Nat :=
  if 48 ≤ c.toNat ∧ c.toNat ≤ 57 then some (c.toNat - 48)
  else if 97 ≤ c.toNat ∧ c.toNat ≤ 102 then some (c.toNat - 87)
  else if 65 ≤ c.toNat ∧ c.toNat ≤ 70 then some (c.toNat - 55)
  else none

/-- Prepend a decoded character to the result of parsing the remainder
of a string body. -/
def consChar (c : Char) (r : Option (List Char × List Char)) : Option (List Char × List Char) :=
  r.map (fun p => (c :: p.1, p.2))

/-- Parse the body of a JSON string literal up to and including the
closing quote, decoding the escape sequences `JSON.parse` accepts.
Code points are unicode scalars (Lean `Char`); surrogate-pair escapes do
not occur in the stored records. -/
def parseStrChars : List Char → Option (List Char × List Char)
  | [] => none
  | c :: cs =>
    if c = '"' then some ([], cs)
    else if c = '\\' then
      match cs with
      | [] => none
      | e :: cs2 =>
        if e = '"' then consChar '"' (parseStrChars cs2)
        else if e = '\\' then consChar '\\' (parseStrChars cs2)
        else if e = '/' then consChar '/' (parseStrChars cs2)
        else if e = 'b' then consChar '\x08' (parseStrChars cs2)
        else if e = 'f' then consChar '\x0c' (parseStrChars cs2)
        else if e = 'n' then consChar '\n' (parseStrChars cs2)
        else if e = 'r' then consChar '\r' (parseStrChars cs2)
        else if e = 't' then consChar '\t' (parseStrChars cs2)
        else if e = 'u' then
          match cs2 with
          | h1 :: h2 :: h3 :: h4 :: cs3 =>
            match hexVal h1, hexVal h2, hexVal h3, hexVal h4 with
            | some d1, some d2, some d3, some d4 =>
              consChar (Char.ofNat (((d1 * 16 + d2) * 16 + d3) * 16 + d4)) (parseStrChars cs3)
            | _, _, _, _ => none
          | _ => none
        else none
    else consChar c (parseStrChars cs)

mutual
/-- Recursive-descent `JSON.parse` on a character list, with a fuel
budget bounding the nesting the parse may descend through.  Returns the
parsed value and the unconsumed remainder. -/
def parseVal : Nat → List Char → Option (Json × List Char)
  | 0, _ => none
  | fuel + 1, l =>
    match skipWs l with
    | [] => none
    | c :: cs =>
      if c = 'n' then
        match cs with
        | 'u' :: 'l' :: 'l' :: r => some (.null, r)
        | _ => none
      else if c = 't' then
        match cs with
        | 'r' :: 'u' :: 'e' :: r => some (.bool true, r)
        | _ => none
      else if c = 'f' then
        match cs with
        | 'a' :: 'l' :: 's' :: 'e' :: r => some (.bool false, r)
        | _ => none
      else if c = '"' then
        (parseStrChars cs).map (fun p => (.str (String.mk p.1), p.2))
      else if c = '[' then
        if (skipWs cs).head? = some ']' then some (.arr [], (skipWs cs).tail)
        else (parseItems fuel cs).map (fun p => (.arr p.1, p.2))
      else if c = '{' then
        if (skipWs cs).head? = some '}' then some (.obj [], (skipWs cs).tail)
        else (parseMembers fuel cs).map (fun p => (.obj p.1, p.2))
      else
        (parseNum (c :: cs)).map (fun p => (.num p.1, p.2))

/-- Parse a nonempty comma-separated run of array elements followed by
the closing bracket. -/
def parseItems : Nat → List Char → Option (List Json × List Char)
  | 0, _ => none
  | fuel + 1, l =>
    match parseVal fuel l with
    | none => none
    | some (v, r1) =>
      match skipWs r1 with
      | ',' :: r2 =>
        match parseItems fuel r2 with
        | none => none
        | some (vs, r3) => some (v :: vs, r3)
      | ']' :: r2 => some ([v], r2)
      | _ => none

/-- Parse a nonempty comma-separated run of `"key": value` members
followed by the closing brace. -/
def parseMembers : Nat → List Char → Option (List (String × Json) × List Char)
  | 0, _ => none
  | fuel + 1, l =>
    match skipWs l with
    | '"' :: cs =>
      match parseStrChars cs with
      | none => none
      | some (k, r1) =>
        match skipWs r1 with
        | ':' :: r2 =>
          match parseVal fuel r2 with
          | none => none
          | some (v, r3) =>
            match skipWs r3 with
            | ',' :: r4 =>
              match parseMembers fuel r4 with
              | none => none
              | some (ms, r5) => some ((String.mk k, v) :: ms, r5)
            | '}' :: r4 => some ([(String.mk k, v)], r4)
            | _ => none
        | _ => none
    | _ => none
end

/-- Whole-input `JSON.parse`: the value must be followed by nothing but
whitespace.  The fuel `l.length + 1` dominates any nesting depth a
parse of `l` can reach. -/
def parseTop (l : List Char) : Option Json :=
  match parseVal (l.length + 1) l with
  | some (v, rest) => if skipWs rest = [] then some v else none
  | none => none

mutual
/-- Fuel budget sufficient for `parseVal` to parse the rendering of a
value: one unit per `parseVal` entry plus one per element step. -/
def need : Json → Nat
  | .null => 1
  | .bool _ => 1
  | .num _ => 1
  | .str _ => 1
  | .arr [] => 1
  | .arr (v :: vs) => 1 + needItems v vs
  | .obj [] => 1
  | .obj ((_, v) :: fs) => 1 + needFields v fs
termination_by j => sizeOf j
decreasing_by all_goals (simp_wf <;> omega)

/-- Fuel budget for a run of array elements. -/
def needItems (v : Json) : List Json → Nat
  | [] => 1 + need v
  | w :: ws => 1 + need v + needItems w ws
termination_by l => sizeOf v + sizeOf l
decreasing_by all_goals (simp_wf <;> omega)

/-- Fuel budget for a run of object members. -/
def needFields (v : Json) : List (String × Json) → Nat
  | [] => 1 + need v
  | (_, v2) :: gs => 1 + need v + needFields v2 gs
termination_by l => sizeOf v + sizeOf l
decreasing_by all_goals (simp_wf <;> omega)
end

/-- Condition on a trailing context guaranteeing a parsed number is not
extended by it: the context must not begin with a digit.  Every context
produced by the renderer (separator, closing bracket, end of input)
satisfies it. -/
def stopper : List Char → Prop
  | [] => True
  | c :: _ => isDigitC c = false

/-! ### Session API routes (src/app/api/sessions) -/

/-- File system visible to the session routes: the `data/sessions`
directory as a map from file name to content; `none` means reading that
name fails. -/
def FileSys : Type := String → Option (List Char)

/-- File name used for a session id by both the POST handler and the
dynamic GET handler (template literal appending `.json`). -/
def sessionFile (id : String) : String := id ++ ".json"

/-- HTTP response of a route handler: status code and JSON body. -/
structure ApiResponse where
  status : Nat
  body : Json
  deriving Repr

/-- Error body the dynamic GET handler returns with status 404. -/
def notFoundBody : Json := Json.obj [("error", Json.str "Session not found")]

/-- Try-block of the GET handler for `/api/sessions/[id]`
(`src/unnamed/part_003`, lines 8-20): `fs.readFile` throws when the
file is absent or unreadable, `JSON.parse` throws on malformed
content. -/
def readSessionBody (fs : FileSys) (id : String) : Except String Json :=
  match fs (sessionFile id) with
  | none => .error "ENOENT"
  | some content =>
    match parseTop content with
    | none => .error "SyntaxError"
    | some j => .ok j

/-- GET handler for `/api/sessions/[id]`: the parsed session with
status 200, or status 404 with the error body when the try-block
throws. -/
def sessionByIdGET (fs : FileSys) (id : String) : ApiResponse :=
  match readSessionBody fs id with
  | .ok j => ⟨200, j⟩
  | .error _ => ⟨404, notFoundBody⟩

/-- First binding of key `k` in an object field list (JS property
lookup on a parsed record). -/
def lookupField : List (String × Json) → String → Option Json
  | [], _ => none
  | (k2, v) :: fs, k => if k2 = k then some v else lookupField fs k

/-- String the POST handler's template literal produces for the posted
record's `id` field.  Session ids in this application are strings (the
frontend uses `Date.now().toString()`); numeric, boolean, null and
absent ids follow JS coercion; composite ids do not occur and are not
modelled further. -/
def idKey : Json → String
  | .obj fields =>
    match lookupField fields "id" with
    | some (.str s) => s
    | some (.num n) => String.mk (intChars n)
    | some (.bool true) => "true"
    | some (.bool false) => "false"
    | some .null => "null"
    | some _ => "composite"
    | none => "undefined"
  | _ => "undefined"

/-- POST handler for `/api/sessions` (`route.ts` lines 41-54): writes
`JSON.stringify(session, null, 2)` under the session id's file name and
echoes the session back with status 200. -/
def sessionsPOST (fs : FileSys) (session : Json) : FileSys × ApiResponse :=
  (fun name => if name = sessionFile (idKey session) then some (renderVal 0 session) else fs name,
   ⟨200, session⟩)

/-- Timestamp a session is sorted by; sessions stored by this
application always carry an integral `timestamp` field. -/
def tsOf (j : Json) : Int :=
  match j with
  | .obj fields =>
    match lookupField fields "timestamp" with
    | some (.num n) => n
    | _ => 0
  | _ => 0

/-- Insertion into a newest-first list, after any entry it ties with
(the stable placement of `Array.prototype.sort`). -/
def insertByTs (x : Json) : List Json → List Json
  | [] => [x]
  | y :: ys => if tsOf y < tsOf x then x :: y :: ys else y :: insertByTs x ys

/-- Stable sort newest-first by `timestamp`, modelling the handler's
`sessions.sort` with comparator subtracting timestamps. -/
def sortByTs : List Json → List Json
  | [] => []
  | x :: xs => insertByTs x (sortByTs xs)

/-- Parse every file content in order; any `JSON.parse` throw fails the
whole `Promise.all`, which the handler's catch turns into a 500. -/
def parseAllFiles : List (List Char) → Option (List Json)
  | [] => some []
  | c :: cs =>
    match parseTop c, parseAllFiles cs with
    | some j, some js => some (j :: js)
    | _, _ => none

/-- Directory listing of `data/sessions`: file names with contents. -/
def SessionsDir : Type := List (String × List Char)

/-- GET handler for `/api/sessions` (`route.ts` lines 17-38): keeps the
`.json` directory entries, parses each, sorts newest-first by
`timestamp`, and returns the array; a read or parse failure is caught
and becomes a 500. -/
def sessionsGET (dir : SessionsDir) : ApiResponse :=
  let contents := (dir.filter (fun f => ".json".data.isSuffixOf f.1.data)).map Prod.snd
  match parseAllFiles contents with
  | some sessions => ⟨200, Json.arr (sortByTs sessions)⟩
  | none => ⟨500, Json.obj [("error", Json.str "Failed to read sessions")]⟩

/-! ### Agent URL selection (src/app/api/copilotkit/route.ts) -/

/-- Backend URL chosen by `getAgentUrl` (lines 12-17): the Render
backend exactly in production, localhost in every other environment. -/
def getAgentUrl (nodeEnv : String) : String :=
  if nodeEnv = "production" then "https://aiagentic.onrender.com/" else "http://localhost:8000/"

/-! ### Capability registry

The Python registry is documented (spec §4.1) but its source is not in
the snapshot, so it is modelled from the spec. -/

/-- Modelled from the spec: unit health status (§3 CapabilityUnit); the
registry source (Python agent backend) is missing from the snapshot. -/
inductive UnitStatus : Type where
  | available : UnitStatus
  | degraded : UnitStatus
  | unavailable : UnitStatus
  deriving Repr, DecidableEq

/-- Modelled from the spec: a capability unit (§3): name, health
status, named operations, and a degradation cause present exactly when
the unit is not fully available. -/
structure CapabilityUnit where
  name : String
  status : UnitStatus
  operations : List String
  degradationReason : Option String
  deriving Repr, DecidableEq

/-- Modelled from the spec: the deployment-time facts `load` (§4.1)
reacts to for one unit: whether its optional dependency or credential
is present, whether its construction code raises, and the operations it
exposes. -/
structure UnitEnv where
  depsPresent : Bool
  constructionOk : Bool
  ops : List String
  deriving Repr, DecidableEq

/-- Modelled from the spec: `load(name)` (§4.1): a missing optional
dependency yields a Degraded unit whose operations are stubs under the
same names; a construction failure yields an Unavailable unit with zero
operations; otherwise the unit is Available.  Nothing is propagated to
the caller as a crash. -/
def load (env : String → UnitEnv) (name : String) : CapabilityUnit :=
  let e := env name
  if e.depsPresent = false then
    ⟨name, .degraded, e.ops, some "dependency missing"⟩
  else if e.constructionOk = false then
    ⟨name, .unavailable, [], some "unit load failed"⟩
  else
    ⟨name, .available, e.ops, none⟩

/-- Modelled from the spec: `loadAll(names)` (§4.1) loads every
requested name independently into a registry keyed uniquely by name. -/
def loadAll (env : String → UnitEnv) (names : List String) : List (String × CapabilityUnit) :=
  names.dedup.map (fun n => (n, load env n))

/-! ### Composition engine

The Python parallel/sequential engine is documented (spec §4.2) but its
source is not in the snapshot, so it is modelled from the spec. -/

/-- Modelled from the spec: per-member stage result (§4.2): a member
invocation that raises is recorded as a failed result carrying the
reason. -/
structure MemberResult where
  memberName : String
  failed : Bool
  output : String
  deriving Repr, DecidableEq

/-- Modelled from the spec: invoking one member (§4.2 error handling):
the member's raising behaviour is an `Except`, and the engine contains
a raise as that member's failed result instead of propagating it. -/
def invoke (behavior : String → Except String String) (name : String) : MemberResult :=
  match behavior name with
  | .ok out => ⟨name, false, out⟩
  | .error reason => ⟨name, true, reason⟩

/-- Modelled from the spec: a Sequential stage (§4.2) runs its members
one after another, converting every raise into that member's failed
result and continuing with the remaining members (collect all results,
not fail fast). -/
def runSequential (behavior : String → Except String String) (members : List String) :
    List MemberResult :=
  members.map (invoke behavior)

/-- Modelled from the spec: completion log of a Parallel stage (§4.2,
§5): members are dispatched concurrently and complete in an arbitrary
interleaving `order` of the member indices; each completion records its
member index with its result. -/
def completionLog (behavior : String → Except String String) (members : List String)
    (order : List Nat) : List (Nat × MemberResult) :=
  order.filterMap (fun i => (members[i]?).map (fun m => (i, invoke behavior m)))

/-- Modelled from the spec: the join of a Parallel stage (§4.2) waits
for all members, then emits one slot per declared member in declared
order, reading each member's completion from the log. -/
def joinResults (count : Nat) (log : List (Nat × MemberResult)) : List (Option MemberResult) :=
  (List.range count).map (fun i => (log.find? (fun e => e.1 = i)).map Prod.snd)

/-- Modelled from the spec: a Parallel stage run under completion
interleaving `order`. -/
def runParallel (behavior : String → Except String String) (members : List String)
    (order : List Nat) : List (Option MemberResult) :=
  joinResults members.length (completionLog behavior members order)

/-! ### Notification store

The Python notification store is documented (spec §4.3) but its source
is not in the snapshot, so it is modelled from the spec. -/

/-- Modelled from the spec: priority levels (§3 Notification). -/
inductive Priority : Type where
  | low : Priority
  | normal : Priority
  | high : Priority
  | urgent : Priority
  deriving Repr, DecidableEq

/-- Modelled from the spec: a notification record (§3). -/
structure Notification where
  id : Nat
  title : String
  message : String
  priority : Priority
  createdAt : Nat
  read : Bool
  deliverAt : Option Nat
  deriving Repr, DecidableEq

/-- Modelled from the spec: the notification store (§3): insertion
ordered items and the next id to assign (ids monotonically assigned,
never reused within a store lifetime). -/
structure NotificationStore where
  items : List Notification
  nextId : Nat
  deriving Repr, DecidableEq

/-- Store at the beginning of a lifetime. -/
def emptyStore : NotificationStore := ⟨[], 0⟩

/-- Modelled from the spec: `sendNotification` (§4.3) assigns a fresh
id, persists the record, and returns it. -/
def sendNotification (store : NotificationStore) (now : Nat) (title message : String)
    (priority : Priority) (deliverAt : Option Nat) : Notification × NotificationStore :=
  let n : Notification := ⟨store.nextId, title, message, priority, now, false, deliverAt⟩
  (n, ⟨store.items ++ [n], store.nextId + 1⟩)

/-- Modelled from the spec: `scheduleReminder` (§4.3) is the
convenience wrapper computing `deliverAt = now + delay` and creating a
pending record. -/
def scheduleReminder (store : NotificationStore) (now : Nat) (title message : String)
    (delay : Nat) (priority : Priority) : Notification × NotificationStore :=
  sendNotification store now title message priority (some (now + delay))

/-- Modelled from the spec: lazy due-check (§4.3): a record is visible
once the current time has reached `deliverAt`, or immediately when
`deliverAt` is absent. -/
def visibleAt (now : Nat) (n : Notification) : Bool :=
  match n.deliverAt with
  | none => true
  | some t => t ≤ now

/-- Modelled from the spec: `getNotifications` (§4.3): currently
visible records, newest first, optionally restricted to unread ones. -/
def getNotifications (store : NotificationStore) (now : Nat) (unreadOnly : Bool) :
    List Notification :=
  let vis := store.items.filter (visibleAt now)
  let vis2 := if unreadOnly then vis.filter (fun n => n.read = false) else vis
  vis2.reverse

/-- Modelled from the spec: the error `markRead` surfaces on a missing
id (§7 NotificationNotFound). -/
inductive StoreError : Type where
  | notificationNotFound : StoreError
  deriving Repr, DecidableEq

/-- Modelled from the spec: `markRead(id)` (§4.3) sets `read = true` on
the record with that id and returns it; a missing id is a NotFound
failure, never a silent success. -/
def markRead (store : NotificationStore) (id : Nat) :
    Except StoreError (Notification × NotificationStore) :=
  match store.items.find? (fun n => n.id = id) with
  | none => .error .notificationNotFound
  | some n =>
    .ok ({ n with read := true },
      ⟨store.items.map (fun m => if m.id = id then { m with read := true } else m),
       store.nextId⟩)

/-- Modelled from the spec: `clearNotifications(onlyRead?)` (§4.3)
removes the read records, or all records, returning the removed
count. -/
def clearNotifications (store : NotificationStore) (onlyRead : Bool) :
    Nat × NotificationStore :=
  let keep := if onlyRead then store.items.filter (fun n => n.read = false) else []
  (store.items.length - keep.length, ⟨keep, store.nextId⟩)

/-- Modelled from the spec: the mutating operations of one store
lifetime (§3 Notification lifecycle). -/
inductive StoreOp : Type where
  | send (now : Nat) (title message : String) (priority : Priority) (deliverAt : Option Nat)
  | remind (now : Nat) (title message : String) (delay : Nat) (priority : Priority)
  | mark (id : Nat)
  | clear (onlyRead : Bool)

/-- State reached after one mutating operation. -/
def applyOp (store : NotificationStore) : StoreOp → NotificationStore
  | .send now t m p d => (sendNotification store now t m p d).2
  | .remind now t m delay p => (scheduleReminder store now t m delay p).2
  | .mark id =>
    match markRead store id with
    | .ok r => r.2
    | .error _ => store
  | .clear onlyRead => (clearNotifications store onlyRead).2

/-- State reached after a sequence of mutating operations. -/
def applyOps (store : NotificationStore) : List StoreOp → NotificationStore
  | [] => store
  | op :: ops => applyOps (applyOp store op) ops

/-- Ids assigned by send and remind operations along a run. -/
def assignedIds (store : NotificationStore) : List StoreOp → List Nat
  | [] => []
  | op :: ops =>
    match op with
    | .send _ _ _ _ _ => store.nextId :: assignedIds (applyOp store op) ops
    | .remind _ _ _ _ _ => store.nextId :: assignedIds (applyOp store op) ops
    | .mark _ => assignedIds (applyOp store op) ops
    | .clear _ => assignedIds (applyOp store op) ops

/-- Invariant of a notification store lifetime: every stored id is
below the next id to assign, and the items are in strictly increasing
id order (insertion order equals id order). -/
def storeInv (store : NotificationStore) : Prop :=
  (∀ n, n ∈ store.items → n.id < store.nextId) ∧
  List.Pairwise (fun a b => a.id < b.id) store.items

/-- Round-trip property of one value: the parser recovers the value
from its rendering at any indentation, any sufficient fuel, and any
non-digit-leading trailing context. -/
def ParsesRender (w : Json) : Prop :=
  ∀ ind fuel rest, need w ≤ fuel → stopper rest →
    parseVal fuel (renderVal ind w ++ rest) = some (w, rest)

/-! ### Whitespace and digit lemmas -/

theorem skipWs_cons_ws {c : Char} (h : isWs c = true) (l : List Char) :
    skipWs (c :: l) = skipWs l := by
  simp [skipWs, h]

theorem skipWs_cons_not {c : Char} (h : isWs c = false) (l : List Char) :
    skipWs (c :: l) = c :: l := by
  simp [skipWs, h]

theorem skipWs_ws_append {w : List Char} (h : ∀ c ∈ w, isWs c = true) (l : List Char) :
    skipWs (w ++ l) = skipWs l := by
  induction w with
  | nil => rfl
  | cons c cs ih =>
    rw [List.cons_append, skipWs_cons_ws (h c (by simp)), ih (fun d hd => h d (by simp [hd]))]

theorem skipWs_nlIndent (ind : Nat) (l : List Char) :
    skipWs (nlIndent ind ++ l) = skipWs l := by
  apply skipWs_ws_append
  intro c hc
  simp [nlIndent, List.mem_replicate] at hc
  rcases hc with h | ⟨_, h⟩ <;> (subst h; decide)

theorem digitChar_toNat {d : Nat} (h : d < 10) : (digitChar d).toNat = 48 + d := by
  interval_cases d <;> decide

theorem isDigitC_digitChar {d : Nat} (h : d < 10) : isDigitC (digitChar d) = true := by
  simp only [isDigitC, digitChar_toNat h, Bool.and_eq_true, decide_eq_true_eq]
  omega

theorem digitVal_digitChar {d : Nat} (h : d < 10) : digitVal (digitChar d) = d := by
  simp [digitVal, digitChar_toNat h]

theorem natChars_ne_nil (n : Nat) : natChars n ≠ [] := by
  rw [natChars]; split <;> simp

theorem natChars_digits (n : Nat) :
    ∀ c ∈ natChars n, ∃ d, d < 10 ∧ c = digitChar d := by
  induction n using Nat.strong_induction_on with
  | _ n ih =>
    rw [natChars]
    split
    · next h => intro c hc; simp at hc; exact ⟨n, h, hc⟩
    · next h =>
      intro c hc
      rcases List.mem_append.mp hc with h1 | h1
      · exact ih (n / 10) (Nat.div_lt_self (by omega) (by omega)) c h1
      · simp at h1; exact ⟨n % 10, Nat.mod_lt n (by omega), h1⟩

theorem isDigitC_spec {c : Char} (h : isDigitC c = true) : 48 ≤ c.toNat ∧ c.toNat ≤ 57 := by
  simpa [isDigitC] using h

theorem digit_head_facts {c : Char} (h : isDigitC c = true) :
    isWs c = false ∧ c ≠ 'n' ∧ c ≠ 't' ∧ c ≠ 'f' ∧ c ≠ '"' ∧ c ≠ '[' ∧ c ≠ '{' ∧ c ≠ '-' ∧
      c ≠ ']' ∧ c ≠ '}' ∧ c ≠ ',' ∧ c ≠ ':' := by
  obtain ⟨h1, h2⟩ := isDigitC_spec h
  refine ⟨?_, ?_, ?_, ?_, ?_, ?_, ?_, ?_, ?_, ?_, ?_, ?_⟩
  · by_contra hw
    rw [Bool.not_eq_false] at hw
    simp only [isWs, Bool.or_eq_true, decide_eq_true_eq] at hw
    rcases hw with ((e | e) | e) | e <;> (subst e; revert h1 h2; decide)
  all_goals (intro e; subst e; revert h1 h2; decide)

/-! ### Number round trip -/

theorem parseDigits_stopper {rest : List Char} (h : stopper rest) (acc : Nat) :
    parseDigits rest acc = (acc, rest) := by
  cases rest with
  | nil => rfl
  | cons c t =>
    simp only [stopper] at h
    simp [parseDigits, h]

theorem natChars_len_succ {n : Nat} (h : ¬ n < 10) :
    (natChars n).length = (natChars (n / 10)).length + 1 := by
  conv_lhs => rw [natChars]
  simp [h]

theorem parseDigits_natChars (n : Nat) :
    ∀ acc rest, parseDigits (natChars n ++ rest) acc
      = parseDigits rest (acc * 10 ^ (natChars n).length + n) := by
  induction n using Nat.strong_induction_on with
  | _ n ih =>
    intro acc rest
    by_cases h : n < 10
    · conv_lhs => rw [natChars]
      rw [if_pos h, List.cons_append, List.nil_append]
      have hlen : (natChars n).length = 1 := by rw [natChars, if_pos h]; rfl
      rw [hlen]
      simp [parseDigits, isDigitC_digitChar h, digitVal_digitChar h]
    · conv_lhs => rw [natChars]
      rw [if_neg h, List.append_assoc, ih (n / 10) (Nat.div_lt_self (by omega) (by omega))]
      rw [natChars_len_succ h, List.cons_append, List.nil_append]
      have hmlt : n % 10 < 10 := Nat.mod_lt n (by omega)
      simp only [parseDigits, isDigitC_digitChar hmlt, if_true, digitVal_digitChar hmlt]
      congr 1
      rw [pow_succ]
      have hmod : n / 10 * 10 + n % 10 = n := by omega
      calc (acc * 10 ^ (natChars (n / 10)).length + n / 10) * 10 + n % 10
          = acc * (10 ^ (natChars (n / 10)).length * 10) + (n / 10 * 10 + n % 10) := by ring
        _ = acc * (10 ^ (natChars (n / 10)).length * 10) + n := by rw [hmod]

theorem natChars_head (m : Nat) :
    ∃ d t, d < 10 ∧ natChars m = digitChar d :: t := by
  cases hnc : natChars m with
  | nil => exact absurd hnc (natChars_ne_nil m)
  | cons c t =>
    obtain ⟨d, hd10, rfl⟩ := natChars_digits m c (by rw [hnc]; simp)
    exact ⟨d, t, hd10, rfl⟩

theorem parseNum_natChars (m : Nat) {rest : List Char} (h : stopper rest) :
    parseNum (natChars m ++ rest) = some ((m : Int), rest) := by
  obtain ⟨d, t, hd10, hct⟩ := natChars_head m
  have hdig := isDigitC_digitChar hd10
  have hnm : digitChar d ≠ '-' := (digit_head_facts hdig).2.2.2.2.2.2.2.1
  rw [hct, List.cons_append]
  simp only [parseNum, if_neg hnm, hdig, if_true]
  have hback : digitChar d :: (t ++ rest) = natChars m ++ rest := by rw [hct, List.cons_append]
  rw [hback, parseDigits_natChars, parseDigits_stopper h]
  simp

theorem parseNum_intChars (n : Int) {rest : List Char} (h : stopper rest) :
    parseNum (intChars n ++ rest) = some (n, rest) := by
  by_cases hn : n < 0
  · rw [intChars, if_pos hn, List.cons_append]
    obtain ⟨d, t, hd10, hct⟩ := natChars_head n.natAbs
    have hdig := isDigitC_digitChar hd10
    rw [hct, List.cons_append]
    simp only [parseNum, if_pos rfl, hdig, if_true]
    have hback : digitChar d :: (t ++ rest) = natChars n.natAbs ++ rest := by
      rw [hct, List.cons_append]
    rw [hback, parseDigits_natChars, parseDigits_stopper h]
    have habs : ((n.natAbs : Int)) = -n := by omega
    simp [habs]
  · rw [intChars, if_neg hn, parseNum_natChars n.natAbs h]
    rw [Int.natAbs_of_nonneg (by omega)]

/-! ### String round trip -/

theorem hexVal_hexChar {d : Nat} (h : d < 16) : hexVal (hexChar d) = some d := by
  interval_cases d <;> decide

theorem hexVal_zero : hexVal '0' = some 0 := by decide

theorem parseStrChars_escChar (c : Char) (l : List Char) :
    parseStrChars (escChar c ++ l) = consChar c (parseStrChars l) := by
  rw [escChar]
  by_cases h1 : c = '"'
  · rw [if_pos h1, List.cons_append, List.cons_append, List.nil_append]
    conv_lhs => rw [parseStrChars.eq_def]
    subst h1
    simp
  rw [if_neg h1]
  by_cases h2 : c = '\\'
  · rw [if_pos h2, List.cons_append, List.cons_append, List.nil_append]
    conv_lhs => rw [parseStrChars.eq_def]
    subst h2
    simp
  rw [if_neg h2]
  by_cases h3 : 32 ≤ c.toNat
  · rw [if_pos h3, List.singleton_append]
    conv_lhs => rw [parseStrChars.eq_def]
    simp [h1, h2]
  rw [if_neg h3]
  by_cases h4 : c = '\x08'
  · rw [if_pos h4, List.cons_append, List.cons_append, List.nil_append]
    conv_lhs => rw [parseStrChars.eq_def]
    subst h4
    simp
  rw [if_neg h4]
  by_cases h5 : c = '\t'
  · rw [if_pos h5, List.cons_append, List.cons_append, List.nil_append]
    conv_lhs => rw [parseStrChars.eq_def]
    subst h5
    simp
  rw [if_neg h5]
  by_cases h6 : c = '\n'
  · rw [if_pos h6, List.cons_append, List.cons_append, List.nil_append]
    conv_lhs => rw [parseStrChars.eq_def]
    subst h6
    simp
  rw [if_neg h6]
  by_cases h7 : c = '\x0c'
  · rw [if_pos h7, List.cons_append, List.cons_append, List.nil_append]
    conv_lhs => rw [parseStrChars.eq_def]
    subst h7
    simp
  rw [if_neg h7]
  by_cases h8 : c = '\r'
  · rw [if_pos h8, List.cons_append, List.cons_append, List.nil_append]
    conv_lhs => rw [parseStrChars.eq_def]
    subst h8
    simp
  rw [if_neg h8]
  have hdiv : c.toNat / 16 < 16 := by omega
  have hmod : c.toNat % 16 < 16 := by omega
  simp only [List.cons_append, List.nil_append]
  conv_lhs => rw [parseStrChars.eq_def]
  simp [hexVal_zero, hexVal_hexChar hdiv, hexVal_hexChar hmod]
  have hc : c.toNat / 16 * 16 + c.toNat % 16 = c.toNat := by omega
  rw [hc, Char.ofNat_toNat]

theorem parseStrChars_escString (s : List Char) (rest : List Char) :
    parseStrChars (s.flatMap escChar ++ ('"' :: rest)) = some (s, rest) := by
  induction s with
  | nil =>
    rw [List.flatMap_nil, List.nil_append]
    conv_lhs => rw [parseStrChars.eq_def]
    simp
  | cons c cs ih =>
    rw [List.flatMap_cons, List.append_assoc, parseStrChars_escChar, ih]
    rfl

/-! ### Value round trip -/

theorem nlIndent_ws (ind : Nat) : ∀ c ∈ nlIndent ind, isWs c = true := by
  intro c hc
  simp [nlIndent, List.mem_replicate] at hc
  rcases hc with h | ⟨_, h⟩ <;> (subst h; decide)

theorem parseVal_ws {w : List Char} (h : ∀ c ∈ w, isWs c = true) (fuel : Nat) (l : List Char) :
    parseVal fuel (w ++ l) = parseVal fuel l := by
  cases fuel with
  | zero => rfl
  | succ f =>
    rw [parseVal.eq_2 (w ++ l) f, parseVal.eq_2 l f, skipWs_ws_append h]

theorem parseVal_nlIndent (ind : Nat) (fuel : Nat) (l : List Char) :
    parseVal fuel (nlIndent ind ++ l) = parseVal fuel l :=
  parseVal_ws (nlIndent_ws ind) fuel l

theorem renderVal_head (ind : Nat) (v : Json) :
    ∃ c t, renderVal ind v = c :: t ∧ isWs c = false ∧ c ≠ ']' ∧ c ≠ '}' := by
  cases v with
  | null =>
    exact ⟨'n', ['u', 'l', 'l'], by simp [renderVal, litNull], by decide, by decide, by decide⟩
  | bool b =>
    cases b
    · exact ⟨'f', ['a', 'l', 's', 'e'], by simp [renderVal, litFalse], by decide, by decide,
        by decide⟩
    · exact ⟨'t', ['r', 'u', 'e'], by simp [renderVal, litTrue], by decide, by decide,
        by decide⟩
  | num n =>
    by_cases hn : n < 0
    · exact ⟨'-', natChars n.natAbs, by simp [renderVal, intChars, hn], by decide, by decide,
        by decide⟩
    · obtain ⟨d, t, hd10, hct⟩ := natChars_head n.natAbs
      have hfacts := digit_head_facts (isDigitC_digitChar hd10)
      refine ⟨digitChar d, t, ?_, hfacts.1, hfacts.2.2.2.2.2.2.2.2.1,
        hfacts.2.2.2.2.2.2.2.2.2.1⟩
      simp [renderVal, intChars, hn, hct]
  | str s =>
    exact ⟨'"', escString s ++ ['"'], by simp [renderVal, strChars], by decide, by decide,
      by decide⟩
  | arr items =>
    cases items with
    | nil => exact ⟨'[', [']'], by simp [renderVal], by decide, by decide, by decide⟩
    | cons v vs =>
      exact ⟨'[', renderItems (ind + 2) v vs ++ nlIndent ind ++ [']'], by simp [renderVal],
        by decide, by decide, by decide⟩
  | obj fields =>
    cases fields with
    | nil => exact ⟨'{', ['}'], by simp [renderVal], by decide, by decide, by decide⟩
    | cons f fs =>
      obtain ⟨k, v⟩ := f
      exact ⟨'{', renderFields (ind + 2) k v fs ++ nlIndent ind ++ ['}'], by simp [renderVal],
        by decide, by decide, by decide⟩

theorem renderItems_decomp (ind : Nat) (v : Json) (vs : List Json) :
    ∃ T, renderItems ind v vs = nlIndent ind ++ (renderVal ind v ++ T) := by
  cases vs with
  | nil => exact ⟨[], by simp [renderItems]⟩
  | cons w ws => exact ⟨',' :: renderItems ind w ws, by simp [renderItems]⟩

theorem renderFields_decomp (ind : Nat) (k : String) (v : Json) (fs : List (String × Json)) :
    ∃ T, renderFields ind k v fs
      = nlIndent ind ++ (strChars k ++ (':' :: ' ' :: (renderVal ind v ++ T))) := by
  cases fs with
  | nil => exact ⟨[], by simp [renderFields]⟩
  | cons g gs =>
    obtain ⟨k2, v2⟩ := g
    exact ⟨',' :: renderFields ind k2 v2 gs, by simp [renderFields]⟩

theorem stopper_nlIndent (ind : Nat) (l : List Char) : stopper (nlIndent ind ++ l) := by
  rw [nlIndent, List.cons_append]
  simp only [stopper]
  decide

theorem parseItems_render (vs : List Json) :
    ∀ v, (∀ w, w ∈ v :: vs → ParsesRender w) →
      ∀ ind ind2 fuel rest, needItems v vs ≤ fuel →
        parseItems fuel (renderItems ind v vs ++ (nlIndent ind2 ++ (']' :: rest)))
          = some (v :: vs, rest) := by
  induction vs with
  | nil =>
    intro v H ind ind2 fuel rest hfuel
    simp only [needItems] at hfuel
    cases fuel with
    | zero => omega
    | succ f =>
      have hv := H v (by simp) ind f (nlIndent ind2 ++ (']' :: rest)) (by omega)
        (stopper_nlIndent ind2 _)
      rw [parseItems.eq_2]
      simp only [renderItems]
      rw [List.append_assoc, parseVal_nlIndent, hv]
      simp [skipWs_nlIndent, skipWs_cons_not (by decide : isWs ']' = false)]
  | cons w ws ih =>
    intro v H ind ind2 fuel rest hfuel
    simp only [needItems] at hfuel
    cases fuel with
    | zero => omega
    | succ f =>
      have hstop : stopper (',' :: (renderItems ind w ws ++ (nlIndent ind2 ++ (']' :: rest)))) := by
        simp only [stopper]
        decide
      have hv := H v (by simp) ind f _ (by omega) hstop
      rw [parseItems.eq_2]
      simp only [renderItems]
      rw [show (nlIndent ind ++ renderVal ind v ++ ',' :: renderItems ind w ws)
            ++ (nlIndent ind2 ++ (']' :: rest))
          = nlIndent ind ++ (renderVal ind v
            ++ (',' :: (renderItems ind w ws ++ (nlIndent ind2 ++ (']' :: rest))))) from by simp]
      rw [parseVal_nlIndent, hv]
      simp only [skipWs_cons_not (by decide : isWs ',' = false)]
      rw [ih w (fun u hu => H u (List.mem_cons_of_mem v hu)) ind ind2 f rest (by omega)]

theorem parseVal_cons_ws {c : Char} (h : isWs c = true) (fuel : Nat) (l : List Char) :
    parseVal fuel (c :: l) = parseVal fuel l := by
  have := parseVal_ws (w := [c]) (by intro d hd; simp at hd; subst hd; exact h) fuel l
  simpa using this

theorem parseMembers_render (fs : List (String × Json)) :
    ∀ k v, (∀ p, p ∈ (k, v) :: fs → ParsesRender p.2) →
      ∀ ind ind2 fuel rest, needFields v fs ≤ fuel →
        parseMembers fuel (renderFields ind k v fs ++ (nlIndent ind2 ++ ('}' :: rest)))
          = some ((k, v) :: fs, rest) := by
  induction fs with
  | nil =>
    intro k v H ind ind2 fuel rest hfuel
    simp only [needFields] at hfuel
    cases fuel with
    | zero => omega
    | succ f =>
      have hv := H (k, v) (by simp) ind f (nlIndent ind2 ++ ('}' :: rest))
        (show need v ≤ f by omega) (stopper_nlIndent ind2 _)
      rw [parseMembers.eq_2]
      simp only [renderFields, strChars]
      rw [show (nlIndent ind ++ ('"' :: (escString k ++ ['"'])) ++ ':' :: ' ' :: renderVal ind v)
            ++ (nlIndent ind2 ++ ('}' :: rest))
          = nlIndent ind ++ ('"' :: (escString k ++ ('"' :: (':' :: (' ' :: (renderVal ind v
            ++ (nlIndent ind2 ++ ('}' :: rest)))))))) from by simp]
      simp only [skipWs_nlIndent, skipWs_cons_not (by decide : isWs '"' = false), escString]
      rw [parseStrChars_escString]
      simp only [skipWs_cons_not (by decide : isWs ':' = false)]
      rw [parseVal_cons_ws (by decide), hv]
      simp only [skipWs_nlIndent, skipWs_cons_not (by decide : isWs '}' = false)]
  | cons g gs ih =>
    obtain ⟨k2, v2⟩ := g
    intro k v H ind ind2 fuel rest hfuel
    simp only [needFields] at hfuel
    cases fuel with
    | zero => omega
    | succ f =>
      have hstop : stopper (',' :: (renderFields ind k2 v2 gs
          ++ (nlIndent ind2 ++ ('}' :: rest)))) := by
        simp only [stopper]
        decide
      have hv := H (k, v) (by simp) ind f _ (show need v ≤ f by omega) hstop
      rw [parseMembers.eq_2]
      simp only [renderFields, strChars]
      rw [show (nlIndent ind ++ ('"' :: (escString k ++ ['"'])) ++ ':' :: ' ' :: renderVal ind v
            ++ ',' :: renderFields ind k2 v2 gs) ++ (nlIndent ind2 ++ ('}' :: rest))
          = nlIndent ind ++ ('"' :: (escString k ++ ('"' :: (':' :: (' ' :: (renderVal ind v
            ++ (',' :: (renderFields ind k2 v2 gs
              ++ (nlIndent ind2 ++ ('}' :: rest)))))))))) from by simp]
      simp only [skipWs_nlIndent, skipWs_cons_not (by decide : isWs '"' = false), escString]
      rw [parseStrChars_escString]
      simp only [skipWs_cons_not (by decide : isWs ':' = false)]
      rw [parseVal_cons_ws (by decide), hv]
      simp only [skipWs_cons_not (by decide : isWs ',' = false)]
      rw [ih k2 v2 (fun u hu => H u (List.mem_cons_of_mem (k, v) hu)) ind ind2 f rest (by omega)]

theorem parsesRender_of_size (N : Nat) : ∀ v, sizeOf v ≤ N → ParsesRender v := by
  induction N with
  | zero =>
    intro v hv
    exfalso
    cases v <;> (simp at hv <;> omega)
  | succ N ih =>
    intro v hv ind fuel rest hfuel hstop
    cases v with
    | null =>
      simp only [need] at hfuel
      cases fuel with
      | zero => omega
      | succ f =>
        simp only [renderVal, litNull, List.cons_append, List.nil_append]
        rw [parseVal.eq_2, skipWs_cons_not (by decide : isWs 'n' = false)]
        simp
    | bool b =>
      simp only [need] at hfuel
      cases fuel with
      | zero => omega
      | succ f =>
        cases b
        · simp only [renderVal, litFalse, List.cons_append, List.nil_append]
          rw [parseVal.eq_2, skipWs_cons_not (by decide : isWs 'f' = false)]
          simp
        · simp only [renderVal, litTrue, List.cons_append, List.nil_append]
          rw [parseVal.eq_2, skipWs_cons_not (by decide : isWs 't' = false)]
          simp
    | num n =>
      simp only [need] at hfuel
      cases fuel with
      | zero => omega
      | succ f =>
        simp only [renderVal]
        by_cases hn : n < 0
        · rw [intChars, if_pos hn, List.cons_append, parseVal.eq_2,
            skipWs_cons_not (by decide : isWs '-' = false)]
          simp only [reduceIte]
          rw [show '-' :: (natChars n.natAbs ++ rest) = intChars n ++ rest from by
            rw [intChars, if_pos hn, List.cons_append]]
          rw [parseNum_intChars n hstop]
          rfl
        · obtain ⟨d, t, hd10, hct⟩ := natChars_head n.natAbs
          have hfacts := digit_head_facts (isDigitC_digitChar hd10)
          rw [intChars, if_neg hn, hct, List.cons_append, parseVal.eq_2,
            skipWs_cons_not hfacts.1]
          simp only [if_neg hfacts.2.1, if_neg hfacts.2.2.1, if_neg hfacts.2.2.2.1,
            if_neg hfacts.2.2.2.2.1, if_neg hfacts.2.2.2.2.2.1, if_neg hfacts.2.2.2.2.2.2.1]
          rw [show digitChar d :: (t ++ rest) = intChars n ++ rest from by
            rw [intChars, if_neg hn, hct, List.cons_append]]
          rw [parseNum_intChars n hstop]
          rfl
    | str s =>
      simp only [need] at hfuel
      cases fuel with
      | zero => omega
      | succ f =>
        simp only [renderVal, strChars, List.cons_append]
        rw [parseVal.eq_2, skipWs_cons_not (by decide : isWs '"' = false)]
        simp only [reduceIte, List.append_assoc, List.singleton_append, escString]
        rw [parseStrChars_escString]
        rfl
    | arr items =>
      cases items with
      | nil =>
        simp only [need] at hfuel
        cases fuel with
        | zero => omega
        | succ f =>
          simp only [renderVal, List.cons_append, List.nil_append]
          rw [parseVal.eq_2, skipWs_cons_not (by decide : isWs '[' = false)]
          simp [skipWs_cons_not (by decide : isWs ']' = false)]
      | cons v vs =>
        simp only [need] at hfuel
        cases fuel with
        | zero => omega
        | succ f =>
          have H : ∀ w, w ∈ v :: vs → ParsesRender w := by
            intro w hw
            apply ih
            have h1 : sizeOf w < sizeOf (v :: vs) := List.sizeOf_lt_of_mem hw
            have h2 : sizeOf (Json.arr (v :: vs)) ≤ N + 1 := hv
            simp only [Json.arr.sizeOf_spec] at h2
            omega
          simp only [renderVal]
          rw [show ('[' :: (renderItems (ind + 2) v vs ++ nlIndent ind ++ [']'])) ++ rest
              = '[' :: (renderItems (ind + 2) v vs ++ (nlIndent ind ++ (']' :: rest))) from by
            simp]
          rw [parseVal.eq_2, skipWs_cons_not (by decide : isWs '[' = false)]
          simp only [if_neg (by decide : ¬(('[' : Char) = 'n')),
            if_neg (by decide : ¬(('[' : Char) = 't')),
            if_neg (by decide : ¬(('[' : Char) = 'f')),
            if_neg (by decide : ¬(('[' : Char) = '"')),
            if_pos (rfl : ('[' : Char) = '[')]
          obtain ⟨c0, t0, hrv, hnws, hnr, _⟩ := renderVal_head (ind + 2) v
          obtain ⟨T, hT⟩ := renderItems_decomp (ind + 2) v vs
          have hskip : skipWs (renderItems (ind + 2) v vs ++ (nlIndent ind ++ (']' :: rest)))
              = c0 :: (t0 ++ (T ++ (nlIndent ind ++ (']' :: rest)))) := by
            rw [hT, List.append_assoc, skipWs_nlIndent, List.append_assoc, hrv,
              List.cons_append, skipWs_cons_not hnws]
          rw [hskip]
          have hcond : ¬((c0 :: (t0 ++ (T ++ (nlIndent ind ++ (']' :: rest))))).head?
              = some ']') := by
            simp only [List.head?_cons, Option.some.injEq]
            exact hnr
          rw [if_neg hcond]
          rw [parseItems_render vs v H (ind + 2) ind f rest (by omega)]
          rfl
    | obj fields =>
      cases fields with
      | nil =>
        simp only [need] at hfuel
        cases fuel with
        | zero => omega
        | succ f =>
          simp only [renderVal, List.cons_append, List.nil_append]
          rw [parseVal.eq_2, skipWs_cons_not (by decide : isWs '{' = false)]
          simp [skipWs_cons_not (by decide : isWs '}' = false)]
      | cons g gs =>
        obtain ⟨k, v⟩ := g
        simp only [need] at hfuel
        cases fuel with
        | zero => omega
        | succ f =>
          have H : ∀ p, p ∈ (k, v) :: gs → ParsesRender p.2 := by
            intro p hp
            apply ih
            have h1 : sizeOf p < sizeOf ((k, v) :: gs) := List.sizeOf_lt_of_mem hp
            have h2 : sizeOf (Json.obj ((k, v) :: gs)) ≤ N + 1 := hv
            have h3 : sizeOf p.2 < sizeOf p := by
              obtain ⟨a, b⟩ := p
              simp
            simp only [Json.obj.sizeOf_spec] at h2
            omega
          simp only [renderVal]
          rw [show ('{' :: (renderFields (ind + 2) k v gs ++ nlIndent ind ++ ['}'])) ++ rest
              = '{' :: (renderFields (ind + 2) k v gs ++ (nlIndent ind ++ ('}' :: rest))) from by
            simp]
          rw [parseVal.eq_2, skipWs_cons_not (by decide : isWs '{' = false)]
          simp only [if_neg (by decide : ¬(('{' : Char) = 'n')),
            if_neg (by decide : ¬(('{' : Char) = 't')),
            if_neg (by decide : ¬(('{' : Char) = 'f')),
            if_neg (by decide : ¬(('{' : Char) = '"')),
            if_neg (by decide : ¬(('{' : Char) = '[')),
            if_pos (rfl : ('{' : Char) = '{')]
          obtain ⟨T, hT⟩ := renderFields_decomp (ind + 2) k v gs
          have hskip : skipWs (renderFields (ind + 2) k v gs ++ (nlIndent ind ++ ('}' :: rest)))
              = '"' :: ((escString k ++ ['"']) ++ ((':' :: ' ' :: (renderVal (ind + 2) v ++ T))
                ++ (nlIndent ind ++ ('}' :: rest)))) := by
            rw [hT]
            rw [show (nlIndent (ind + 2) ++ (strChars k ++ (':' :: ' ' :: (renderVal (ind + 2) v
                  ++ T)))) ++ (nlIndent ind ++ ('}' :: rest))
                = nlIndent (ind + 2) ++ ('"' :: ((escString k ++ ['"'])
                  ++ ((':' :: ' ' :: (renderVal (ind + 2) v ++ T))
                    ++ (nlIndent ind ++ ('}' :: rest))))) from by simp [strChars]]
            rw [skipWs_nlIndent, skipWs_cons_not (by decide : isWs '"' = false)]
          rw [hskip]
          have hcond : ¬(('"' :: ((escString k ++ ['"']) ++ ((':' :: ' ' :: (renderVal (ind + 2) v
              ++ T)) ++ (nlIndent ind ++ ('}' :: rest))))).head? = some '}') := by
            simp
          rw [if_neg hcond, parseMembers_render gs k v H (ind + 2) ind f rest (by omega)]
          rfl

theorem nlIndent_length (ind : Nat) : (nlIndent ind).length = ind + 1 := by
  simp [nlIndent]

theorem needItems_le_length (vs : List Json) :
    ∀ v, (∀ w, w ∈ v :: vs → ∀ ind, need w ≤ (renderVal ind w).length) →
      ∀ ind, needItems v vs ≤ (renderItems ind v vs).length := by
  induction vs with
  | nil =>
    intro v H ind
    have hv := H v (by simp) ind
    simp only [needItems, renderItems, List.length_append, nlIndent_length]
    omega
  | cons w ws ih =>
    intro v H ind
    have hv := H v (by simp) ind
    have hw := ih w (fun u hu => H u (List.mem_cons_of_mem v hu)) ind
    simp only [needItems, renderItems, List.length_append, List.length_cons, nlIndent_length]
    omega

theorem needFields_le_length (gs : List (String × Json)) :
    ∀ k v, (∀ p, p ∈ (k, v) :: gs → ∀ ind, need p.2 ≤ (renderVal ind p.2).length) →
      ∀ ind, needFields v gs ≤ (renderFields ind k v gs).length := by
  induction gs with
  | nil =>
    intro k v H ind
    have hv : need v ≤ (renderVal ind v).length := H (k, v) (by simp) ind
    simp only [needFields, renderFields, List.length_append, List.length_cons, nlIndent_length]
    omega
  | cons g hs ih =>
    obtain ⟨k2, v2⟩ := g
    intro k v H ind
    have hv : need v ≤ (renderVal ind v).length := H (k, v) (by simp) ind
    have hw := ih k2 v2 (fun u hu => H u (List.mem_cons_of_mem (k, v) hu)) ind
    simp only [needFields, renderFields, List.length_append, List.length_cons, nlIndent_length]
    omega

theorem need_le_length (N : Nat) :
    ∀ v, sizeOf v ≤ N → ∀ ind, need v ≤ (renderVal ind v).length := by
  induction N with
  | zero =>
    intro v hv
    exfalso
    cases v <;> (simp at hv <;> omega)
  | succ N ih =>
    intro v hv ind
    cases v with
    | null => simp [need, renderVal, litNull]
    | bool b => cases b <;> simp [need, renderVal, litTrue, litFalse]
    | num n =>
      simp only [need, renderVal]
      have h1 : intChars n ≠ [] := by
        rw [intChars]
        split
        · simp
        · exact natChars_ne_nil n.natAbs
      have := List.length_pos.2 h1
      omega
    | str s => simp [need, renderVal, strChars]
    | arr items =>
      cases items with
      | nil => simp [need, renderVal]
      | cons v vs =>
        have H : ∀ w, w ∈ v :: vs → ∀ ind2, need w ≤ (renderVal ind2 w).length := by
          intro w hw ind2
          apply ih
          have h1 : sizeOf w < sizeOf (v :: vs) := List.sizeOf_lt_of_mem hw
          have h2 : sizeOf (Json.arr (v :: vs)) ≤ N + 1 := hv
          simp only [Json.arr.sizeOf_spec] at h2
          omega
        have hi := needItems_le_length vs v H (ind + 2)
        simp only [need, renderVal, List.length_append, List.length_cons]
        omega
    | obj fields =>
      cases fields with
      | nil => simp [need, renderVal]
      | cons g gs =>
        obtain ⟨k, v⟩ := g
        have H : ∀ p, p ∈ (k, v) :: gs → ∀ ind2, need p.2 ≤ (renderVal ind2 p.2).length := by
          intro p hp ind2
          apply ih
          have h1 : sizeOf p < sizeOf ((k, v) :: gs) := List.sizeOf_lt_of_mem hp
          have h2 : sizeOf (Json.obj ((k, v) :: gs)) ≤ N + 1 := hv
          have h3 : sizeOf p.2 < sizeOf p := by
            obtain ⟨a, b⟩ := p
            simp
          simp only [Json.obj.sizeOf_spec] at h2
          omega
        have hi := needFields_le_length gs k v H (ind + 2)
        simp only [need, renderVal, List.length_append, List.length_cons]
        omega

theorem parseTop_renderVal (v : Json) : parseTop (renderVal 0 v) = some v := by
  have hlen := need_le_length (sizeOf v) v le_rfl 0
  have h := parsesRender_of_size (sizeOf v) v le_rfl 0 ((renderVal 0 v).length + 1) []
    (by omega) trivial
  rw [List.append_nil] at h
  rw [parseTop, h]
  rfl

/-! ### Claim theorems: session and copilotkit routes -/

/-- C7: writing a session via POST stores exactly the indented
`JSON.stringify` text under the session id's file name, and reading the
same id back via GET parses that text to the identical record: the GET
response is status 200 with a body equal to the posted session, field
values and field ordering included (serialize-then-parse is the
identity on stored records). -/
theorem post_then_get_roundtrip (fs : FileSys) (session : Json) :
    sessionByIdGET (sessionsPOST fs session).1 (idKey session) = ⟨200, session⟩ := by
  unfold sessionsPOST sessionByIdGET readSessionBody
  simp [parseTop_renderVal]

/-- C9: when the session file is absent or unreadable, and likewise
when its content does not parse, GET of one session id returns HTTP 404
with the body error Session not found; and the handler is total with
every outcome an HTTP response of status 200 or 404, so the read or
parse exception never escapes to the caller. -/
theorem sessionByIdGET_notFound (fs : FileSys) (id : String) :
    ((fs (sessionFile id) = none ∨
        (∃ c, fs (sessionFile id) = some c ∧ parseTop c = none)) →
      sessionByIdGET fs id = ⟨404, notFoundBody⟩) ∧
    ((sessionByIdGET fs id).status = 200 ∨ (sessionByIdGET fs id).status = 404) := by
  constructor
  · intro h
    unfold sessionByIdGET readSessionBody
    rcases h with h | ⟨c, hc, hp⟩
    · rw [h]
    · rw [hc]
      simp [hp]
  · unfold sessionByIdGET
    cases readSessionBody fs id <;> simp

theorem sessionByIdGET_notFound_witness :
    sessionByIdGET (fun _ => none) "missing" = ⟨404, notFoundBody⟩ :=
  (sessionByIdGET_notFound (fun _ => none) "missing").1 (Or.inl rfl)

/-- C10: getAgentUrl is a deterministic function of NODE_ENV alone — it
returns the Render backend URL exactly when NODE_ENV equals production,
returns localhost in every other case, and equal environments always
produce the same URL, so two runs with the same NODE_ENV route to the
same backend. -/
theorem getAgentUrl_spec (env env2 : String) :
    (getAgentUrl env = "https://aiagentic.onrender.com/" ↔ env = "production") ∧
    (env ≠ "production" → getAgentUrl env = "http://localhost:8000/") ∧
    (env = env2 → getAgentUrl env = getAgentUrl env2) := by
  refine ⟨⟨?_, ?_⟩, ?_, ?_⟩
  · intro h
    by_contra hne
    rw [getAgentUrl, if_neg hne] at h
    exact absurd h (by decide)
  · intro h
    rw [getAgentUrl, if_pos h]
  · intro h
    rw [getAgentUrl, if_neg h]
  · intro h
    rw [h]

theorem getAgentUrl_spec_witness :
    getAgentUrl "development" = "http://localhost:8000/" ∧
    getAgentUrl "production" = "https://aiagentic.onrender.com/" :=
  ⟨(getAgentUrl_spec "development" "development").2.1 (by decide),
   (getAgentUrl_spec "production" "production").1.2 rfl⟩

theorem insertByTs_perm (x : Json) (l : List Json) : (insertByTs x l).Perm (x :: l) := by
  induction l with
  | nil => exact List.Perm.refl _
  | cons y ys ih =>
    rw [insertByTs]
    split
    · exact List.Perm.refl _
    · exact (ih.cons y).trans (List.Perm.swap x y ys)

theorem insertByTs_sorted {x : Json} {l : List Json}
    (h : List.Pairwise (fun a b => tsOf b ≤ tsOf a) l) :
    List.Pairwise (fun a b => tsOf b ≤ tsOf a) (insertByTs x l) := by
  induction l with
  | nil => simp [insertByTs]
  | cons y ys ih =>
    rw [insertByTs]
    split
    · next hlt =>
      refine List.Pairwise.cons ?_ h
      intro z hz
      rcases List.mem_cons.1 hz with hz | hz
      · subst hz
        omega
      · have := List.rel_of_pairwise_cons h hz
        omega
    · next hge =>
      refine List.Pairwise.cons ?_ (ih (List.Pairwise.of_cons h))
      intro z hz
      have hz2 : z ∈ x :: ys := (insertByTs_perm x ys).mem_iff.1 hz
      rcases List.mem_cons.1 hz2 with hz2 | hz2
      · subst hz2
        omega
      · exact List.rel_of_pairwise_cons h hz2

theorem sortByTs_perm (l : List Json) : (sortByTs l).Perm l := by
  induction l with
  | nil => exact List.Perm.refl _
  | cons x xs ih =>
    rw [sortByTs]
    exact (insertByTs_perm x (sortByTs xs)).trans (ih.cons x)

theorem sortByTs_sorted (l : List Json) :
    List.Pairwise (fun a b => tsOf b ≤ tsOf a) (sortByTs l) := by
  induction l with
  | nil => simp [sortByTs]
  | cons x xs ih =>
    rw [sortByTs]
    exact insertByTs_sorted ih

/-- C8: when every stored `.json` file parses (sessions with numeric
timestamps), GET of the sessions list returns status 200 with exactly
the sessions parsed from the `.json` files — a permutation of them, and
no others — arranged in descending timestamp order, newest first;
entries without the `.json` suffix are ignored. -/
theorem sessionsGET_sorted (dir : SessionsDir) (sessions : List Json)
    (h : parseAllFiles ((dir.filter (fun f => ".json".data.isSuffixOf f.1.data)).map Prod.snd)
      = some sessions) :
    sessionsGET dir = ⟨200, Json.arr (sortByTs sessions)⟩ ∧
    (sortByTs sessions).Perm sessions ∧
    List.Pairwise (fun a b => tsOf b ≤ tsOf a) (sortByTs sessions) := by
  refine ⟨?_, sortByTs_perm sessions, sortByTs_sorted sessions⟩
  unfold sessionsGET
  simp only [h]

theorem sessionsGET_sorted_witness :
    sessionsGET [("a.json", "1".data), ("b.txt", "x".data), ("c.json", "2".data)]
        = ⟨200, Json.arr (sortByTs [Json.num 1, Json.num 2])⟩ ∧
    (sortByTs [Json.num 1, Json.num 2]).Perm [Json.num 1, Json.num 2] ∧
    List.Pairwise (fun a b => tsOf b ≤ tsOf a) (sortByTs [Json.num 1, Json.num 2]) :=
  sessionsGET_sorted [("a.json", "1".data), ("b.txt", "x".data), ("c.json", "2".data)]
    [Json.num 1, Json.num 2] (by rfl)

/-! ### Claim theorems: capability registry (spec-modelled) -/

theorem load_congr {env env2 : String → UnitEnv} (b : String) (hb : env b = env2 b) :
    load env b = load env2 b := by
  unfold load
  rw [hb]

theorem lookup_loadAll_congr {env env2 : String → UnitEnv} (b : String) (hb : env b = env2 b) :
    ∀ l : List String,
      List.lookup b (l.map (fun n => (n, load env n)))
        = List.lookup b (l.map (fun n => (n, load env2 n))) := by
  intro l
  induction l with
  | nil => rfl
  | cons x xs ih =>
    by_cases hbx : b = x
    · subst hbx
      simp only [List.map_cons, List.lookup, beq_self_eq_true]
      rw [load_congr b hb]
    · have hne : (b == x) = false := by simp [hbx]
      simp only [List.map_cons, List.lookup, hne]
      exact ih

/-- C1: loadAll builds a registry whose keys are exactly the requested
names with duplicates collapsed — every requested name has exactly one
CapabilityUnit entry, unrequested names have none — and the entry
returned for a name b depends only on b's own deployment facts: for any
two environments agreeing on b (so any other unit may fail or succeed
differently), the unit looked up for b is identical (isolation). -/
theorem loadAll_isolation (names : List String) (env env2 : String → UnitEnv) (n b : String)
    (hn : n ∈ names) (hb : env b = env2 b) :
    ((loadAll env names).map Prod.fst) = names.dedup ∧
    ((loadAll env names).map Prod.fst).count n = 1 ∧
    (∀ m, m ∉ names → ((loadAll env names).map Prod.fst).count m = 0) ∧
    List.lookup b (loadAll env names) = List.lookup b (loadAll env2 names) := by
  have hkeys0 : ∀ l : List String, (l.map (fun n => (n, load env n))).map Prod.fst = l := by
    intro l
    induction l with
    | nil => rfl
    | cons x xs ih => simp [ih]
  have hkeys : ((loadAll env names).map Prod.fst) = names.dedup := by
    unfold loadAll
    exact hkeys0 names.dedup
  refine ⟨hkeys, ?_, ?_, ?_⟩
  · rw [hkeys, List.count_dedup, if_pos hn]
  · intro m hm
    rw [hkeys, List.count_dedup, if_neg hm]
  · unfold loadAll
    exact lookup_loadAll_congr b hb names.dedup

theorem loadAll_isolation_witness :
    ((loadAll (fun _ => ⟨true, true, []⟩) ["a", "b", "a"]).map Prod.fst) = ["a", "b", "a"].dedup ∧
    ((loadAll (fun _ => ⟨true, true, []⟩) ["a", "b", "a"]).map Prod.fst).count "a" = 1 ∧
    (∀ m, m ∉ ["a", "b", "a"] →
      ((loadAll (fun _ => ⟨true, true, []⟩) ["a", "b", "a"]).map Prod.fst).count m = 0) ∧
    List.lookup "b" (loadAll (fun _ => ⟨true, true, []⟩) ["a", "b", "a"])
      = List.lookup "b" (loadAll (fun s => if s = "b" then ⟨true, true, []⟩
          else ⟨false, false, []⟩) ["a", "b", "a"]) :=
  loadAll_isolation ["a", "b", "a"] (fun _ => ⟨true, true, []⟩)
    (fun s => if s = "b" then ⟨true, true, []⟩ else ⟨false, false, []⟩) "a" "b"
    (by simp) (by simp)

/-! ### Claim theorems: composition engine (spec-modelled) -/

theorem find_completionLog (behavior : String → Except String String) (members : List String)
    (order : List Nat) (i : Nat) (m : String) (hi : i ∈ order) (hm : members[i]? = some m) :
    (completionLog behavior members order).find? (fun e => decide (e.1 = i))
      = some (i, invoke behavior m) := by
  induction order with
  | nil => cases hi
  | cons j js ih =>
    by_cases hji : j = i
    · subst hji
      simp only [completionLog, List.filterMap_cons, hm, Option.map_some']
      rw [List.find?_cons_of_pos _ (by simp)]
    · have hi2 : i ∈ js := by
        rcases List.mem_cons.1 hi with h | h
        · exact absurd h.symm hji
        · exact h
      have hrec := ih hi2
      cases hmj : members[j]? with
      | none =>
        simp only [completionLog, List.filterMap_cons, hmj, Option.map_none']
        simpa [completionLog] using hrec
      | some m2 =>
        simp only [completionLog, List.filterMap_cons, hmj, Option.map_some']
        rw [List.find?_cons_of_neg _ (by simp [hji])]
        simpa [completionLog] using hrec

/-- C2: a Parallel stage with declared members m1..mn, run under any
completion interleaving of the n concurrent member invocations,
produces exactly n results equal to the declared-order map of member
results — one slot per member, in declared member order — so the
output is the same for every completion order. -/
theorem runParallel_ordered (behavior : String → Except String String) (members : List String)
    (order : List Nat) (hperm : order.Perm (List.range members.length)) :
    runParallel behavior members order = members.map (fun m => some (invoke behavior m)) := by
  unfold runParallel joinResults
  apply List.ext_getElem?
  intro i
  rw [List.getElem?_map, List.getElem?_map]
  by_cases hi : i < members.length
  · rw [List.getElem?_range hi, List.getElem?_eq_getElem hi]
    simp only [Option.map_some']
    have hiord : i ∈ order := hperm.mem_iff.2 (List.mem_range.2 hi)
    have hm : members[i]? = some members[i] := List.getElem?_eq_getElem hi
    rw [find_completionLog behavior members order i members[i] hiord hm]
    rfl
  · rw [List.getElem?_eq_none (by simpa using hi), List.getElem?_eq_none (by omega)]
    rfl

theorem runParallel_ordered_witness :
    runParallel (fun n => if n = "b" then Except.error "boom" else Except.ok "done")
        ["a", "b", "c"] [2, 0, 1]
      = ["a", "b", "c"].map (fun m => some (invoke
          (fun n => if n = "b" then Except.error "boom" else Except.ok "done") m)) :=
  runParallel_ordered (fun n => if n = "b" then Except.error "boom" else Except.ok "done")
    ["a", "b", "c"] [2, 0, 1] (by decide)

/-- C3: a Sequential stage whose member i raises still executes every
member: the run returns one result per member, member i's slot is the
failed result carrying the raise reason, and every member's slot
(before and after i alike) is exactly its own invocation's converted
result; `run` returns a plain list, so the raise never unwinds out of
it. -/
theorem runSequential_contains (behavior : String → Except String String)
    (members : List String) (i : Nat) (hi : i < members.length) (reason : String)
    (hfail : behavior members[i] = .error reason) :
    (runSequential behavior members).length = members.length ∧
    (runSequential behavior members)[i]? = some ⟨members[i], true, reason⟩ ∧
    (∀ j (hj : j < members.length),
      (runSequential behavior members)[j]? = some (invoke behavior members[j])) := by
  refine ⟨by simp [runSequential], ?_, ?_⟩
  · unfold runSequential
    rw [List.getElem?_map, List.getElem?_eq_getElem hi]
    simp only [Option.map_some']
    unfold invoke
    rw [hfail]
  · intro j hj
    unfold runSequential
    rw [List.getElem?_map, List.getElem?_eq_getElem hj]
    rfl

theorem runSequential_contains_witness :
    (runSequential (fun _ => Except.error "boom") ["a", "b", "c"]).length = 3 ∧
    (runSequential (fun _ => Except.error "boom") ["a", "b", "c"])[1]? = some ⟨"b", true, "boom"⟩ ∧
    (∀ j (hj : j < (["a", "b", "c"] : List String).length),
      (runSequential (fun _ => Except.error "boom") ["a", "b", "c"])[j]?
        = some (invoke (fun _ => Except.error "boom") (["a", "b", "c"] : List String)[j])) :=
  runSequential_contains (fun _ => Except.error "boom") ["a", "b", "c"] 1 (by decide) "boom" rfl

/-! ### Claim theorems: notification store (spec-modelled) -/

/-- C4: markRead succeeds exactly on existing ids: when some stored
record carries the id, it returns a notification with that id whose
read flag is true and which is stored in the updated items; when no
record carries the id it fails with NotificationNotFound — it never
silently succeeds on a nonexistent id. -/
theorem markRead_spec (store : NotificationStore) (id : Nat) :
    ((∃ n, n ∈ store.items ∧ n.id = id) →
      ∃ n, markRead store id
          = .ok (n, ⟨store.items.map (fun m => if m.id = id then { m with read := true } else m),
            store.nextId⟩) ∧
        n.read = true ∧ n.id = id ∧
        n ∈ store.items.map (fun m => if m.id = id then { m with read := true } else m)) ∧
    ((∀ n, n ∈ store.items → n.id ≠ id) →
      markRead store id = .error .notificationNotFound) := by
  constructor
  · rintro ⟨n0, hmem, hid⟩
    obtain ⟨m, hm⟩ : ∃ m, store.items.find? (fun n => decide (n.id = id)) = some m := by
      cases hf : store.items.find? (fun n => decide (n.id = id)) with
      | some m => exact ⟨m, rfl⟩
      | none =>
        exfalso
        have := List.find?_eq_none.1 hf n0 hmem
        simp [hid] at this
    have hpred : m.id = id := by
      have := List.find?_some hm
      simpa using this
    have hmmem := List.mem_of_find?_eq_some hm
    refine ⟨{ m with read := true }, ?_, rfl, by simpa using hpred, ?_⟩
    · unfold markRead
      rw [hm]
    · exact List.mem_map.2 ⟨m, hmmem, by rw [if_pos hpred]⟩
  · intro h
    unfold markRead
    rw [List.find?_eq_none.2 (fun x hx => by simp [h x hx])]

theorem markRead_spec_witness :
    (∃ n, markRead ⟨[⟨0, "t", "m", Priority.normal, 5, false, none⟩], 1⟩ 0
        = .ok (n, ⟨[⟨0, "t", "m", Priority.normal, 5, false, none⟩].map
            (fun m => if m.id = 0 then { m with read := true } else m), 1⟩) ∧
      n.read = true ∧ n.id = 0 ∧
      n ∈ [(⟨0, "t", "m", Priority.normal, 5, false, none⟩ : Notification)].map
        (fun m => if m.id = 0 then { m with read := true } else m)) ∧
    markRead emptyStore 3 = .error .notificationNotFound :=
  ⟨(markRead_spec ⟨[⟨0, "t", "m", Priority.normal, 5, false, none⟩], 1⟩ 0).1
      ⟨⟨0, "t", "m", Priority.normal, 5, false, none⟩, by simp, rfl⟩,
   (markRead_spec emptyStore 3).2 (by simp [emptyStore])⟩

/-- C5: scheduleReminder creates its record with
deliverAt = now + delay; at any time strictly before that instant the
record is absent from the default getNotifications view, and at any
time from that instant on it is present. -/
theorem scheduleReminder_visibility (store : NotificationStore) (now : Nat)
    (title message : String) (delay : Nat) (p : Priority) :
    (scheduleReminder store now title message delay p).1.deliverAt = some (now + delay) ∧
    (∀ t, t < now + delay →
      (scheduleReminder store now title message delay p).1
        ∉ getNotifications (scheduleReminder store now title message delay p).2 t false) ∧
    (∀ t, now + delay ≤ t →
      (scheduleReminder store now title message delay p).1
        ∈ getNotifications (scheduleReminder store now title message delay p).2 t false) := by
  refine ⟨rfl, ?_, ?_⟩
  · intro t ht hmem
    simp [scheduleReminder, sendNotification, getNotifications, visibleAt] at hmem
    omega
  · intro t ht
    simp [scheduleReminder, sendNotification, getNotifications, visibleAt]
    omega

theorem scheduleReminder_visibility_witness :
    (scheduleReminder emptyStore 0 "t" "m" 10 Priority.normal).1.deliverAt = some (0 + 10) ∧
    (scheduleReminder emptyStore 0 "t" "m" 10 Priority.normal).1
      ∉ getNotifications (scheduleReminder emptyStore 0 "t" "m" 10 Priority.normal).2 3 false ∧
    (scheduleReminder emptyStore 0 "t" "m" 10 Priority.normal).1
      ∈ getNotifications (scheduleReminder emptyStore 0 "t" "m" 10 Priority.normal).2 12 false :=
  ⟨(scheduleReminder_visibility emptyStore 0 "t" "m" 10 Priority.normal).1,
   (scheduleReminder_visibility emptyStore 0 "t" "m" 10 Priority.normal).2.1 3 (by omega),
   (scheduleReminder_visibility emptyStore 0 "t" "m" 10 Priority.normal).2.2 12 (by omega)⟩

theorem send_inv {store : NotificationStore} (h : storeInv store) (now : Nat)
    (title message : String) (p : Priority) (d : Option Nat) :
    storeInv (sendNotification store now title message p d).2 := by
  obtain ⟨hids, hsort⟩ := h
  constructor
  · intro n hn
    simp only [sendNotification, List.mem_append, List.mem_singleton] at hn
    rcases hn with hn | hn
    · have := hids n hn
      simp only [sendNotification]
      omega
    · subst hn
      simp [sendNotification]
  · simp only [sendNotification]
    rw [List.pairwise_append]
    refine ⟨hsort, by simp, ?_⟩
    intro a ha b hb
    simp only [List.mem_singleton] at hb
    subst hb
    exact hids a ha

theorem markRead_ok_shape {store : NotificationStore} {id : Nat}
    {r : Notification × NotificationStore} (h : markRead store id = .ok r) :
    r.2 = ⟨store.items.map (fun m => if m.id = id then { m with read := true } else m),
      store.nextId⟩ := by
  unfold markRead at h
  cases hfind : store.items.find? (fun n => decide (n.id = id)) with
  | none => rw [hfind] at h; cases h
  | some n0 =>
    rw [hfind] at h
    injection h with h2
    rw [← h2]

theorem applyOp_nextId_mono (store : NotificationStore) (op : StoreOp) :
    store.nextId ≤ (applyOp store op).nextId := by
  cases op with
  | send now t m p d => simp [applyOp, sendNotification]
  | remind now t m delay p => simp [applyOp, scheduleReminder, sendNotification]
  | mark id =>
    simp only [applyOp]
    cases hf : markRead store id with
    | ok r =>
      show store.nextId ≤ r.2.nextId
      rw [markRead_ok_shape hf]
    | error e => simp
  | clear onlyRead => simp [applyOp, clearNotifications]

theorem applyOp_inv {store : NotificationStore} (h : storeInv store) (op : StoreOp) :
    storeInv (applyOp store op) := by
  cases op with
  | send now t m p d => exact send_inv h now t m p d
  | remind now t m delay p => exact send_inv h now t m p (some (now + delay))
  | mark id =>
    obtain ⟨hids, hsort⟩ := h
    simp only [applyOp]
    cases hf : markRead store id with
    | error e => exact ⟨hids, hsort⟩
    | ok r =>
      show storeInv r.2
      rw [markRead_ok_shape hf]
      have fid : ∀ a : Notification,
          (if a.id = id then { a with read := true } else a).id = a.id := by
        intro a
        split <;> rfl
      constructor
      · intro n hn
        simp only [List.mem_map] at hn
        obtain ⟨a, ha, rfl⟩ := hn
        rw [fid a]
        exact hids a ha
      · rw [List.pairwise_map]
        exact hsort.imp (fun hab => by simpa [fid] using hab)
  | clear onlyRead =>
    obtain ⟨hids, hsort⟩ := h
    simp only [applyOp, clearNotifications]
    by_cases ho : onlyRead = true
    · rw [if_pos ho]
      constructor
      · intro n hn
        exact hids n (List.mem_of_mem_filter hn)
      · exact hsort.filter _
    · rw [if_neg ho]
      exact ⟨by simp, by simp⟩

theorem assignedIds_lb (ops : List StoreOp) :
    ∀ store i, i ∈ assignedIds store ops → store.nextId ≤ i := by
  induction ops with
  | nil =>
    intro store i hi
    cases hi
  | cons op ops ih =>
    intro store i hi
    have hmono := applyOp_nextId_mono store op
    cases op with
    | send now t m p d =>
      simp only [assignedIds] at hi
      rcases List.mem_cons.1 hi with hh | hh
      · omega
      · have := ih _ i hh
        omega
    | remind now t m delay p =>
      simp only [assignedIds] at hi
      rcases List.mem_cons.1 hi with hh | hh
      · omega
      · have := ih _ i hh
        omega
    | mark id =>
      simp only [assignedIds] at hi
      have := ih _ i hi
      omega
    | clear b =>
      simp only [assignedIds] at hi
      have := ih _ i hi
      omega

theorem assignedIds_sorted (ops : List StoreOp) :
    ∀ store, List.Pairwise (fun a b => a < b) (assignedIds store ops) := by
  induction ops with
  | nil =>
    intro store
    exact List.Pairwise.nil
  | cons op ops ih =>
    intro store
    cases op with
    | send now t m p d =>
      simp only [assignedIds]
      refine List.Pairwise.cons ?_ (ih _)
      intro j hj
      have hlb := assignedIds_lb ops _ j hj
      have hnext : (applyOp store (.send now t m p d)).nextId = store.nextId + 1 := by
        simp [applyOp, sendNotification]
      omega
    | remind now t m delay p =>
      simp only [assignedIds]
      refine List.Pairwise.cons ?_ (ih _)
      intro j hj
      have hlb := assignedIds_lb ops _ j hj
      have hnext : (applyOp store (.remind now t m delay p)).nextId = store.nextId + 1 := by
        simp [applyOp, scheduleReminder, sendNotification]
      omega
    | mark id =>
      simp only [assignedIds]
      exact ih _
    | clear b =>
      simp only [assignedIds]
      exact ih _

theorem applyOps_inv (ops : List StoreOp) :
    ∀ store, storeInv store → storeInv (applyOps store ops) := by
  induction ops with
  | nil =>
    intro store h
    exact h
  | cons op ops ih =>
    intro store h
    exact ih _ (applyOp_inv h op)

/-- C6: within one store lifetime, every sequence of mutating
operations assigns ids that are pairwise distinct and strictly
increasing in assignment order — so an id removed by clearNotifications,
having been assigned earlier, is never assigned again — and the
resulting items list is in strictly increasing id order (insertion
order equals id order) with every stored id below the next id. -/
theorem store_id_discipline (ops : List StoreOp) :
    List.Pairwise (fun a b => a < b) (assignedIds emptyStore ops) ∧
    List.Pairwise (fun a b => a.id < b.id) (applyOps emptyStore ops).items ∧
    (∀ n, n ∈ (applyOps emptyStore ops).items
      → n.id < (applyOps emptyStore ops).nextId) := by
  have hinv : storeInv (applyOps emptyStore ops) :=
    applyOps_inv ops emptyStore ⟨by simp [emptyStore], by simp [emptyStore]⟩
  exact ⟨assignedIds_sorted ops emptyStore, hinv.2, hinv.1⟩
